import Mathlib

/-!
Shallow embedding of `src/server.js` (spin-the-bottle-api): the room registry,
membership, naming, and spin-scheduling logic, with theorems checking the
specification's claims against it.

Modelling conventions:
* A JS `Map` is an association list in insertion order; `set` updates the
  value in place (keeping the position) when the key is present and appends
  otherwise; `delete` removes the entry; iteration follows list order.
* Socket ids are `Nat` (they stand for the opaque, always-truthy socket.io
  id strings); room codes are `String`.
* Timestamps (`Date.now()`) are `Nat` milliseconds supplied as parameters;
  each `Math.random()` draw is supplied as a parameter reduced by `%` into
  the range the source produces.
* JS 32-bit bitwise operations are modelled on the unsigned representation
  (`Nat` values `< 2^32`); `x >> k` is the arithmetic shift of the signed
  value, `Math.abs` maps the signed value to its magnitude.
* `String.prototype.toLowerCase` is modelled by `Char.toLower` per character
  (exact on the ASCII names the server's alphabet and examples use).
* `Array.prototype.sort` with the numeric comparator is a stable sort by
  `joinedAt` (ES2019 requires sort stability), modelled by a stable
  insertion sort.
-/

namespace SpinBottle

/-- A member of a room: `{ id, name, joinedAt }` in `room.users`. -/
structure User where
  id : Nat
  name : String
  joinedAt : Nat
deriving DecidableEq, Repr, Inhabited

/-- A room: `{ users, hostId, spins, lockUntil, pendingHostId }`. -/
structure Room where
  users : List User
  hostId : Nat
  spins : Nat
  lockUntil : Option Nat
  pendingHostId : Option Nat
deriving DecidableEq, Repr, Inhabited

/-- The global `rooms` map, keyed by join code, in insertion order. -/
abbrev Rooms := List (String × Room)

/-- JS `room.users.has(sid)`. -/
def usersHas (users : List User) (sid : Nat) : Bool :=
  users.any (fun u => u.id == sid)

/-- JS `room.users.get(sid)`. -/
def usersGet (users : List User) (sid : Nat) : Option User :=
  users.find? (fun u => u.id == sid)

/-- JS `room.users.set(u.id, u)`: update in place if present, else append. -/
def usersSet : List User → User → List User
  | [], u => [u]
  | v :: rest, u => if v.id == u.id then u :: rest else v :: usersSet rest u

/-- JS `room.users.delete(sid)`. -/
def usersDelete (users : List User) (sid : Nat) : List User :=
  users.filter (fun u => !(u.id == sid))

/-- JS `[...room.users.keys()][0]` as an `Option`. -/
def firstUserId (users : List User) : Option Nat :=
  users.head?.map (·.id)

/-- JS `rooms.get(code)`. -/
def roomsGet (rooms : Rooms) (code : String) : Option Room :=
  (rooms.find? (fun p => p.1 == code)).map (·.2)

/-- JS `rooms.has(code)`. -/
def roomsHas (rooms : Rooms) (code : String) : Bool :=
  rooms.any (fun p => p.1 == code)

/-- JS `rooms.set(code, r)`: update in place if present, else append. -/
def roomsSet : Rooms → String → Room → Rooms
  | [], code, r => [(code, r)]
  | p :: rest, code, r =>
    if p.1 == code then (code, r) :: rest else p :: roomsSet rest code r

/-- JS `rooms.delete(code)`. -/
def roomsDelete (rooms : Rooms) (code : String) : Rooms :=
  rooms.filter (fun p => !(p.1 == code))

/-! ### Name resolution (`sanitizeName`, `uniqueName`) -/

/-- JS whitespace (`\s`) restricted to the common ASCII whitespace. -/
def isWs (c : Char) : Bool :=
  c == ' ' || c == '\t' || c == '\n' || c == '\r' || c == '\x0b' || c == '\x0c'

/-- JS `String.prototype.trim()`. -/
def trimChars (l : List Char) : List Char :=
  ((l.dropWhile isWs).reverse.dropWhile isWs).reverse

/-- JS `replace(/\s+/g, ' ')`: the Bool flag records whether the previous kept
character came from a whitespace run. -/
def collapseAux : Bool → List Char → List Char
  | _, [] => []
  | prevWs, c :: rest =>
    if isWs c then
      if prevWs then collapseAux true rest
      else ' ' :: collapseAux true rest
    else c :: collapseAux false rest

/-- JS `replace(/\s+/g, ' ')` on a whole list. -/
def collapseWs (l : List Char) : List Char := collapseAux false l

/-- Source `sanitizeName(raw)`; `pr` stands for the `Math.random()` draw of the
placeholder (`Math.floor(100 + Math.random() * 900)` is `100 + pr % 900`). -/
def sanitizeName (raw : String) (pr : Nat) : String :=
  let s := collapseWs (trimChars raw.toList)
  let capped := s.take 20
  if capped.isEmpty then "Player " ++ toString (100 + pr % 900)
  else String.mk capped

/-- JS `name.toLowerCase()` (ASCII-exact). -/
def strLower (s : String) : String := String.mk (s.toList.map Char.toLower)

/-- Source `uniqueName(room, baseName)`: case-insensitive collision check against
all current names (the caller's own included), then ` 2` … ` 98`, then ` *`. -/
def uniqueName (room : Room) (baseName : String) : String :=
  let taken := room.users.map (fun u => strLower u.name)
  if !(taken.contains (strLower baseName)) then baseName
  else
    match (List.range' 2 97).find?
        (fun i => !(taken.contains (strLower (baseName ++ " " ++ toString i)))) with
    | some i => baseName ++ " " ++ toString i
    | none => baseName ++ " *"

/-! ### `seededPick` and `genCode` -/

/-- JS `ToUint32`: the unsigned 32-bit representation of a JS number's integer
value (JS `ToInt32` has the same bit pattern). -/
def toUint32 (z : Int) : Nat := (z % (2 ^ 32 : Int)).toNat

/-- JS `x << k` on 32 bits, unsigned representation. -/
def shl32 (a k : Nat) : Nat := (a <<< k) % 2 ^ 32

/-- JS `x >> k` (sign-propagating shift) on the unsigned representation of a
signed 32-bit value. -/
def sar32 (a k : Nat) : Nat :=
  if a < 2 ^ 31 then a >>> k else (a >>> k) + (2 ^ 32 - 2 ^ (32 - k))

/-- JS `Math.abs(x)` for a signed 32-bit `x` given in unsigned representation. -/
def int32abs (a : Nat) : Nat := if a < 2 ^ 31 then a else 2 ^ 32 - a

/-- Source `seededPick(seed, n)`: xorshift-style mix of the seed, then
`Math.abs(x) % n`. -/
def seededPick (seed : Int) (n : Nat) : Nat :=
  let x0 := Nat.xor (toUint32 seed) 0x9e3779b9
  let x1 := Nat.xor x0 (shl32 x0 13)
  let x2 := Nat.xor x1 (sar32 x1 17)
  let x3 := Nat.xor x2 (shl32 x2 5)
  int32abs x3 % n

/-- The code alphabet of `genCode` (`'ABCDEFGHJKMNPQRSTUVWXYZ23456789'`). -/
def alphabet : List Char := "ABCDEFGHJKMNPQRSTUVWXYZ23456789".toList

/-- One 6-character attempt of `genCode`; `rand j` stands for the `j`-th
`(Math.random() * alphabet.length) | 0` draw. -/
def codeAttempt (rand : Nat → Nat) (k : Nat) : String :=
  String.mk ((List.range 6).map (fun i => alphabet.getD (rand (6 * k + i)) 'A'))

/-- Source `genCode()`: retry (with fuel) while the attempt collides with a live
room; `k` indexes the attempt. -/
def genCode (rooms : Rooms) (rand : Nat → Nat) : Nat → Nat → Option String
  | 0, _ => none
  | fuel + 1, k =>
    let code := codeAttempt rand k
    if roomsHas rooms code then genCode rooms rand fuel (k + 1) else some code

/-! ### Turn order -/

/-- Stable insertion of `u` after every user with `joinedAt ≤ u.joinedAt`. -/
def insertByJoin : List User → User → List User
  | [], u => [u]
  | v :: rest, u =>
    if v.joinedAt ≤ u.joinedAt then v :: insertByJoin rest u else u :: v :: rest

/-- JS `[...].sort((a,b) => a.joinedAt - b.joinedAt)`: stable sort by join time. -/
def sortByJoin (l : List User) : List User := l.foldl insertByJoin []

/-- The turn order: users sorted by join time, truncated to the first 10. -/
def turnOrder (users : List User) : List User := (sortByJoin users).take 10

/-! ### Event handlers -/

/-- The `room_state` broadcast payload of `emitState`. -/
structure RoomState where
  roomId : String
  users : List User
  hostId : Nat
  spins : Nat
  lockUntil : Option Nat
deriving DecidableEq, Repr

/-- Source `emitState(roomId)`: the snapshot broadcast to the room, if it exists. -/
def emitState (rooms : Rooms) (code : String) : Option RoomState :=
  match roomsGet rooms code with
  | none => none
  | some room => some ⟨code, sortByJoin room.users, room.hostId, room.spins, room.lockUntil⟩

/-- Handler `create_room`: allocate the room with the caller as host and sole member.
`code` is the generated join code, `now` the timestamp, `pr` the placeholder
randomness. -/
def createStep (rooms : Rooms) (sid : Nat) (code : String) (raw : String) (now pr : Nat) :
    Rooms :=
  let room0 : Room :=
    { users := [], hostId := sid, spins := 0, lockUntil := none, pendingHostId := none }
  let clean := uniqueName room0 (sanitizeName raw pr)
  roomsSet rooms code { room0 with users := usersSet room0.users ⟨sid, clean, now⟩ }

/-- Handler `join_room`: no-op on a missing room, else add the caller. -/
def joinStep (rooms : Rooms) (sid : Nat) (code : String) (raw : String) (now pr : Nat) :
    Rooms :=
  match roomsGet rooms code with
  | none => rooms
  | some room =>
    let clean := uniqueName room (sanitizeName raw pr)
    roomsSet rooms code { room with users := usersSet room.users ⟨sid, clean, now⟩ }

/-- Handler `leave_room`: remove the caller; if they were host promote the first
remaining user or delete the emptied room. -/
def leaveStep (rooms : Rooms) (sid : Nat) (code : String) : Rooms :=
  match roomsGet rooms code with
  | none => rooms
  | some room =>
    let users1 := usersDelete room.users sid
    if room.hostId == sid then
      match firstUserId users1 with
      | some next => roomsSet rooms code { room with users := users1, hostId := next }
      | none => roomsDelete rooms code
    else roomsSet rooms code { room with users := users1 }

/-- JS `user.name = clean`: the in-place rename of the caller's user object. -/
def renameUsers (users : List User) (sid : Nat) (clean : String) : List User :=
  users.map (fun u => if u.id == sid then { u with name := clean } else u)

/-- The acknowledgment of `set_name`. -/
inductive SetNameAck where
  | fail
  | ok (name : String)
deriving DecidableEq, Repr

/-- The full outcome of `set_name`: new registry, ack, broadcast. -/
structure SetNameOutcome where
  rooms : Rooms
  ack : SetNameAck
  broadcast : Option RoomState
deriving DecidableEq, Repr

/-- Handler `set_name`: fail on missing room or non-member caller; else resolve a
unique name against all current names and rename in place. -/
def setNameStep (rooms : Rooms) (sid : Nat) (code : String) (raw : String) (pr : Nat) :
    SetNameOutcome :=
  match roomsGet rooms code with
  | none => ⟨rooms, .fail, none⟩
  | some room =>
    match usersGet room.users sid with
    | none => ⟨rooms, .fail, none⟩
    | some _ =>
      let clean := uniqueName room (sanitizeName raw pr)
      let rooms1 := roomsSet rooms code { room with users := renameUsers room.users sid clean }
      ⟨rooms1, .ok clean, emitState rooms1 code⟩

/-- The `spin_start` broadcast payload. -/
structure SpinStart where
  orderIds : List Nat
  targetIndex : Nat
  durationMs : Nat
  turns : Nat
  startAt : Nat
  nextHostId : Nat
  hostSwitchAt : Nat
  spins : Nat
deriving DecidableEq, Repr

/-- The outcome of `spin_request`: new registry, targeted `spin_denied`
reason (if any), and the `spin_start` broadcast (if any). -/
structure SpinOutcome where
  rooms : Rooms
  denied : Option String
  started : Option SpinStart
deriving DecidableEq, Repr

/-- Handler `spin_request`: authorization, lock and player-count checks, then the
seeded pick and the lock/pending-host mutation. `now` is the handler's
`Date.now()`, `seed` the later `Date.now()` used as seed, `durR`/`turnsR`
the `Math.random()` draws. -/
def spinStep (rooms : Rooms) (sid : Nat) (code : String) (now : Nat) (seed : Int)
    (durR turnsR : Nat) : SpinOutcome :=
  match roomsGet rooms code with
  | none => ⟨rooms, none, none⟩
  | some room =>
    let finished := match room.lockUntil with
      | none => true
      | some t => decide (t ≤ now)
    let isCurrentHost := room.hostId == sid
    let isPendingWinnerNowHost := (room.pendingHostId == some sid) && finished
    if !isCurrentHost && !isPendingWinnerNowHost then ⟨rooms, none, none⟩
    else if (match room.lockUntil with
             | none => false
             | some t => decide (now < t)) then
      ⟨rooms, some "A spin is already in progress.", none⟩
    else
      let order := turnOrder room.users
      if order.length < 2 then ⟨rooms, some "Need at least 2 players.", none⟩
      else
        let spins1 := room.spins + 1
        let targetIndex := seededPick seed order.length
        let winnerId := (order.getD targetIndex default).id
        let turns := 4 + turnsR % 2
        let durationMs := 3400 + durR % 400
        let startAt := now + 600
        let hostSwitchAt := startAt + durationMs + 250
        let room1 := { room with
          spins := spins1, lockUntil := some hostSwitchAt, pendingHostId := some winnerId }
        ⟨roomsSet rooms code room1, none,
          some ⟨order.map (·.id), targetIndex, durationMs, turns, startAt, winnerId,
                hostSwitchAt, spins1⟩⟩

/-- The per-room body of the deferred commit (`setTimeout` callback): install
the pending winner if still a member, else the first remaining user (the
host is unchanged when none remain); clear `pendingHostId` and `lockUntil`. -/
def commitRoom (r : Room) : Room :=
  let stillHere := match r.pendingHostId with
    | some p => usersHas r.users p
    | none => false
  let newHost :=
    if stillHere then r.pendingHostId.getD r.hostId
    else (firstUserId r.users).getD r.hostId
  { r with hostId := newHost, pendingHostId := none, lockUntil := none }

/-- The deferred commit: re-fetch the room (no-op when it vanished). -/
def commitStep (rooms : Rooms) (code : String) : Rooms :=
  match roomsGet rooms code with
  | none => rooms
  | some r => roomsSet rooms code (commitRoom r)

/-- Handler `disconnect`: for every room containing the caller, remove them and
repair or delete as in `leave_room`. -/
def disconnectStep (rooms : Rooms) (sid : Nat) : Rooms :=
  rooms.filterMap (fun p =>
    if usersHas p.2.users sid then
      let room := p.2
      let users1 := usersDelete room.users sid
      if room.hostId == sid then
        match firstUserId users1 with
        | some next => some (p.1, { room with users := users1, hostId := next })
        | none => none
      else some (p.1, { room with users := users1 })
    else some p)

/-! ### The event system -/

/-- One inbound event or deferred commit, with its nondeterministic inputs
(timestamps, randomness, generated code) as fields. -/
inductive Event where
  | create (sid : Nat) (code : String) (raw : String) (now pr : Nat)
  | join (sid : Nat) (code : String) (raw : String) (now pr : Nat)
  | leave (sid : Nat) (code : String)
  | rename (sid : Nat) (code : String) (raw : String) (pr : Nat)
  | spin (sid : Nat) (code : String) (now : Nat) (seed : Int) (durR turnsR : Nat)
  | disc (sid : Nat)
  | commit (code : String)

/-- Effect of one event on the registry. -/
def applyEvent (rooms : Rooms) : Event → Rooms
  | .create sid code raw now pr => createStep rooms sid code raw now pr
  | .join sid code raw now pr => joinStep rooms sid code raw now pr
  | .leave sid code => leaveStep rooms sid code
  | .rename sid code raw pr => (setNameStep rooms sid code raw pr).rooms
  | .spin sid code now seed durR turnsR => (spinStep rooms sid code now seed durR turnsR).rooms
  | .disc sid => disconnectStep rooms sid
  | .commit code => commitStep rooms code

/-- Registries reachable from the empty registry by any event sequence. -/
inductive Reachable : Rooms → Prop
  | init : Reachable []
  | step (s : Rooms) (e : Event) : Reachable s → Reachable (applyEvent s e)

/-- The host invariant: every room's `hostId` is a current member. -/
def HostOk (rooms : Rooms) : Prop :=
  ∀ p ∈ rooms, usersHas p.2.users p.2.hostId = true

/-! ### Helper lemmas on the map operations -/

theorem mem_roomsSet {rooms : Rooms} {code : String} {r : Room} {p : String × Room}
    (h : p ∈ roomsSet rooms code r) : p = (code, r) ∨ p ∈ rooms := by
  induction rooms with
  | nil =>
    simp [roomsSet] at h
    exact Or.inl h
  | cons q rest ih =>
    unfold roomsSet at h
    split at h
    · rcases List.mem_cons.mp h with h1 | h1
      · exact Or.inl h1
      · exact Or.inr (List.mem_cons_of_mem q h1)
    · rcases List.mem_cons.mp h with h1 | h1
      · exact Or.inr (h1 ▸ List.mem_cons_self q rest)
      · rcases ih h1 with h2 | h2
        · exact Or.inl h2
        · exact Or.inr (List.mem_cons_of_mem q h2)

theorem roomsGet_mem {rooms : Rooms} {code : String} {r : Room}
    (h : roomsGet rooms code = some r) : (code, r) ∈ rooms := by
  unfold roomsGet at h
  cases hf : rooms.find? (fun p => p.1 == code) with
  | none => simp [hf] at h
  | some q =>
    have hq := List.mem_of_find?_eq_some hf
    have hpred := List.find?_some hf
    simp [hf] at h
    cases q with
    | mk a b =>
      simp at hpred h
      subst hpred
      subst h
      exact hq

theorem usersHas_usersSet_preserve {users : List User} {u : User} {x : Nat}
    (h : usersHas users x = true) : usersHas (usersSet users u) x = true := by
  induction users with
  | nil => simp [usersHas] at h
  | cons v rest ih =>
    simp only [usersHas, List.any_cons, Bool.or_eq_true] at h
    unfold usersSet
    split
    · rename_i hvu
      simp only [usersHas, List.any_cons, Bool.or_eq_true]
      rcases h with h1 | h1
      · refine Or.inl ?_
        simp at h1 hvu ⊢
        omega
      · exact Or.inr h1
    · simp only [usersHas, List.any_cons, Bool.or_eq_true]
      rcases h with h1 | h1
      · exact Or.inl h1
      · exact Or.inr (ih h1)

theorem usersHas_usersSet_self {users : List User} {u : User} :
    usersHas (usersSet users u) u.id = true := by
  induction users with
  | nil => simp [usersSet, usersHas]
  | cons v rest ih =>
    unfold usersSet
    split
    · simp [usersHas]
    · simp only [usersHas, List.any_cons, Bool.or_eq_true]
      exact Or.inr ih

theorem usersHas_usersDelete {users : List User} {x sid : Nat}
    (hne : x ≠ sid) (h : usersHas users x = true) :
    usersHas (usersDelete users sid) x = true := by
  rcases List.any_eq_true.mp h with ⟨v, hv, hvx⟩
  simp at hvx
  refine List.any_eq_true.mpr ⟨v, List.mem_filter.mpr ⟨hv, by simp [hvx]; omega⟩, by simp [hvx]⟩

theorem usersHas_of_firstUserId {users : List User} {x : Nat}
    (h : firstUserId users = some x) : usersHas users x = true := by
  unfold firstUserId at h
  cases users with
  | nil => simp at h
  | cons u rest =>
    simp at h
    exact List.any_eq_true.mpr ⟨u, List.mem_cons_self _ _, by simp [h]⟩

theorem usersHas_map_rename {users : List User} {x sid : Nat} {n : String}
    (h : usersHas users x = true) :
    usersHas (renameUsers users sid n) x = true := by
  unfold renameUsers
  rcases List.any_eq_true.mp h with ⟨v, hv, hvx⟩
  simp at hvx
  refine List.any_eq_true.mpr
    ⟨if v.id == sid then { v with name := n } else v, List.mem_map.mpr ⟨v, hv, rfl⟩, ?_⟩
  by_cases hvs : v.id = sid
  · rw [if_pos (by simp [hvs])]
    simp
    omega
  · rw [if_neg (by simp [hvs])]
    simp [hvx]

theorem usersHas_ne_nil {users : List User} {x : Nat}
    (h : usersHas users x = true) : users ≠ [] := by
  intro hnil
  subst hnil
  simp [usersHas] at h

/-! ### Preservation of the host invariant -/

theorem hostOk_createStep {s : Rooms} (hs : HostOk s) (sid : Nat) (code raw : String)
    (now pr : Nat) : HostOk (createStep s sid code raw now pr) := by
  intro p hp
  rcases mem_roomsSet hp with hnew | hold
  · subst hnew
    simp [usersSet, usersHas]
  · exact hs p hold

theorem hostOk_joinStep {s : Rooms} (hs : HostOk s) (sid : Nat) (code raw : String)
    (now pr : Nat) : HostOk (joinStep s sid code raw now pr) := by
  intro p hp
  unfold joinStep at hp
  cases hr : roomsGet s code with
  | none =>
    rw [hr] at hp
    exact hs p hp
  | some room =>
    rw [hr] at hp
    rcases mem_roomsSet hp with hnew | hold
    · subst hnew
      exact usersHas_usersSet_preserve (hs _ (roomsGet_mem hr))
    · exact hs p hold

theorem hostOk_leaveStep {s : Rooms} (hs : HostOk s) (sid : Nat) (code : String) :
    HostOk (leaveStep s sid code) := by
  intro p hp
  unfold leaveStep at hp
  cases hr : roomsGet s code with
  | none =>
    rw [hr] at hp
    exact hs p hp
  | some room =>
    rw [hr] at hp
    simp only at hp
    by_cases hhost : room.hostId = sid
    · simp [hhost] at hp
      cases hnext : firstUserId (usersDelete room.users sid) with
      | some next =>
        rw [hnext] at hp
        rcases mem_roomsSet hp with hnew | hold
        · subst hnew
          exact usersHas_of_firstUserId hnext
        · exact hs p hold
      | none =>
        rw [hnext] at hp
        exact hs p (List.mem_of_mem_filter hp)
    · simp [hhost] at hp
      rcases mem_roomsSet hp with hnew | hold
      · subst hnew
        exact usersHas_usersDelete hhost (hs _ (roomsGet_mem hr))
      · exact hs p hold

theorem hostOk_setNameStep {s : Rooms} (hs : HostOk s) (sid : Nat) (code raw : String)
    (pr : Nat) : HostOk (setNameStep s sid code raw pr).rooms := by
  intro p hp
  unfold setNameStep at hp
  split at hp
  · exact hs p hp
  · rename_i room hr
    split at hp
    · exact hs p hp
    · simp only at hp
      rcases mem_roomsSet hp with hnew | hold
      · subst hnew
        exact usersHas_map_rename (hs _ (roomsGet_mem hr))
      · exact hs p hold

theorem hostOk_spinStep {s : Rooms} (hs : HostOk s) (sid : Nat) (code : String)
    (now : Nat) (seed : Int) (durR turnsR : Nat) :
    HostOk (spinStep s sid code now seed durR turnsR).rooms := by
  intro p hp
  unfold spinStep at hp
  cases hr : roomsGet s code with
  | none =>
    rw [hr] at hp
    exact hs p hp
  | some room =>
    rw [hr] at hp
    simp only at hp
    split at hp
    · exact hs p hp
    · split at hp
      · exact hs p hp
      · split at hp
        · exact hs p hp
        · rcases mem_roomsSet hp with hnew | hold
          · subst hnew
            have hh := hs _ (roomsGet_mem hr)
            exact hh
          · exact hs p hold

theorem hostOk_disconnectStep {s : Rooms} (hs : HostOk s) (sid : Nat) :
    HostOk (disconnectStep s sid) := by
  intro p hp
  unfold disconnectStep at hp
  rcases List.mem_filterMap.mp hp with ⟨q, hq, hfq⟩
  by_cases hin : usersHas q.2.users sid = true
  · simp only [hin, if_true] at hfq
    by_cases hhost : q.2.hostId = sid
    · simp [hhost] at hfq
      cases hnext : firstUserId (usersDelete q.2.users sid) with
      | some next =>
        rw [hnext] at hfq
        simp at hfq
        rw [← hfq]
        exact usersHas_of_firstUserId hnext
      | none =>
        rw [hnext] at hfq
        simp at hfq
    · simp [hhost] at hfq
      rw [← hfq]
      exact usersHas_usersDelete hhost (hs q hq)
  · simp [hin] at hfq
    rw [← hfq]
    exact hs q hq

theorem hostOk_commitStep {s : Rooms} (hs : HostOk s) (code : String) :
    HostOk (commitStep s code) := by
  intro p hp
  unfold commitStep at hp
  cases hr : roomsGet s code with
  | none =>
    rw [hr] at hp
    exact hs p hp
  | some r =>
    rw [hr] at hp
    rcases mem_roomsSet hp with hnew | hold
    · subst hnew
      have hhost := hs _ (roomsGet_mem hr)
      unfold commitRoom
      simp only
      split
      · rename_i hstill
        cases hpend : r.pendingHostId with
        | none =>
          rw [hpend] at hstill
          simp at hstill
        | some q =>
          rw [hpend] at hstill
          simp at hstill
          simp [hpend, hstill]
      · cases husers : r.users with
        | nil => exact absurd husers (usersHas_ne_nil hhost)
        | cons u rest =>
          have hf : firstUserId (u :: rest) = some u.id := by simp [firstUserId]
          simp [hf, usersHas]
    · exact hs p hold

theorem hostOk_applyEvent {s : Rooms} (hs : HostOk s) (e : Event) :
    HostOk (applyEvent s e) := by
  cases e with
  | create sid code raw now pr => exact hostOk_createStep hs sid code raw now pr
  | join sid code raw now pr => exact hostOk_joinStep hs sid code raw now pr
  | leave sid code => exact hostOk_leaveStep hs sid code
  | rename sid code raw pr => exact hostOk_setNameStep hs sid code raw pr
  | spin sid code now seed durR turnsR => exact hostOk_spinStep hs sid code now seed durR turnsR
  | disc sid => exact hostOk_disconnectStep hs sid
  | commit code => exact hostOk_commitStep hs code

/-! ### Sorting lemmas -/

theorem length_insertByJoin (l : List User) (u : User) :
    (insertByJoin l u).length = l.length + 1 := by
  induction l with
  | nil => rfl
  | cons v rest ih =>
    unfold insertByJoin
    split
    · simp [ih]
    · simp

theorem length_sortByJoin (l : List User) : (sortByJoin l).length = l.length := by
  suffices h : ∀ acc : List User, (l.foldl insertByJoin acc).length = acc.length + l.length by
    simpa using h []
  induction l with
  | nil => intro acc; simp
  | cons u rest ih =>
    intro acc
    simp only [List.foldl_cons, ih, length_insertByJoin, List.length_cons]
    omega

theorem length_turnOrder (users : List User) :
    (turnOrder users).length = min 10 users.length := by
  simp [turnOrder, length_sortByJoin]

/-! ### C1 -/

/-- C1: for every reachable registry, every room's `hostId` refers to a
connection-handle currently present in its `users` map. -/
theorem host_member_invariant {s : Rooms} (h : Reachable s) : HostOk s := by
  induction h with
  | init => intro p hp; simp at hp
  | step s e _ ih => exact hostOk_applyEvent ih e

/-- Witness for C1 at a concrete reachable state. -/
theorem host_member_invariant_witness :
    HostOk (applyEvent [] (Event.create 1 "QQQQQQ" "alice" 0 0)) :=
  host_member_invariant
    (Reachable.step [] (Event.create 1 "QQQQQQ" "alice" 0 0) Reachable.init)

/-! ### C10 -/

/-- C10: `seededPick` always lands in `[0, n)` for `n ≥ 1`, and in
particular the winner lookup into a non-empty turn order is in bounds. -/
theorem seededPick_in_range (seed : Int) (n : Nat) (users : List User)
    (hn : 1 ≤ n) (hu : users ≠ []) :
    seededPick seed n < n ∧
      seededPick seed (turnOrder users).length < (turnOrder users).length := by
  constructor
  · exact Nat.mod_lt _ hn
  · refine Nat.mod_lt _ ?_
    rw [length_turnOrder]
    have : users.length ≠ 0 := fun h => hu (List.length_eq_zero.mp h)
    omega

/-- Witness for C10. -/
theorem seededPick_in_range_witness :
    seededPick 0 3 < 3 ∧
      seededPick 0 (turnOrder [⟨1, "a", 0⟩]).length < (turnOrder [⟨1, "a", 0⟩]).length :=
  seededPick_in_range 0 3 [⟨1, "a", 0⟩] (by decide) (by decide)

/-! ### C9 -/

/-- C9: `sanitizeName` trims, collapses internal whitespace runs, caps the
result at 20 characters, and substitutes a `Player N` placeholder with
`100 ≤ N ≤ 999` when the result is empty; the output is never empty. -/
theorem sanitizeName_spec (raw : String) (pr : Nat) :
    sanitizeName raw pr ≠ "" ∧
      ((collapseWs (trimChars raw.toList) = [] ∧
          ∃ N, 100 ≤ N ∧ N ≤ 999 ∧ sanitizeName raw pr = "Player " ++ toString N) ∨
        (collapseWs (trimChars raw.toList) ≠ [] ∧
          sanitizeName raw pr = String.mk ((collapseWs (trimChars raw.toList)).take 20) ∧
          (sanitizeName raw pr).length ≤ 20)) := by
  cases hs : collapseWs (trimChars raw.toList) with
  | nil =>
    have hs2 : collapseWs (trimChars raw.data) = [] := hs
    have hdef : sanitizeName raw pr = "Player " ++ toString (100 + pr % 900) := by
      simp [sanitizeName, hs2]
    refine ⟨?_, Or.inl ⟨rfl, 100 + pr % 900, by omega, by omega, hdef⟩⟩
    rw [hdef]
    intro h
    have hl := congrArg String.length h
    have h7 : ("Player " : String).length = 7 := by decide
    have h0 : ("" : String).length = 0 := by decide
    rw [String.length_append, h7, h0] at hl
    omega
  | cons c rest =>
    have hs2 : collapseWs (trimChars raw.data) = c :: rest := hs
    have hdef : sanitizeName raw pr = String.mk ((c :: rest).take 20) := by
      simp [sanitizeName, hs2]
    have hmk : (String.mk ((c :: rest).take 20)).length = ((c :: rest).take 20).length := rfl
    refine ⟨?_, Or.inr ⟨by simp, hdef, ?_⟩⟩
    · rw [hdef]
      intro h
      have hl := congrArg String.length h
      have h0 : ("" : String).length = 0 := by decide
      rw [hmk, h0, List.length_take, List.length_cons] at hl
      omega
    · rw [hdef, hmk, List.length_take]
      omega

/-! ### C8 -/

/-- C8 counterexample: the `genCode` alphabet has 31 symbols, not 32 (it
drops I, L, O, 0 and 1 from the 36 alphanumerics). -/
theorem alphabet_size_counterexample : alphabet.length = 31 ∧ alphabet.length ≠ 32 := by
  decide

theorem alphabet_getD_mem (n : Nat) : alphabet.getD n 'A' ∈ alphabet := by
  rw [List.getD_eq_getElem?_getD]
  cases hg : alphabet[n]? with
  | none => decide
  | some ch =>
    rcases List.getElem?_eq_some.mp hg with ⟨hlt, heq⟩
    have hmem : ch ∈ alphabet := heq ▸ List.getElem_mem hlt
    simpa using hmem

/-- C8 amended: `genCode` yields a code of exactly 6 characters drawn from
the 31-symbol unambiguous alphabet, regenerating while the attempt collides
with a currently live room, so a returned code is never live. -/
theorem genCode_spec (rooms : Rooms) (rand : Nat → Nat) (fuel k : Nat) (c : String)
    (h : genCode rooms rand fuel k = some c) :
    c.length = 6 ∧ (∀ ch ∈ c.toList, ch ∈ alphabet) ∧ roomsHas rooms c = false ∧
      alphabet.length = 31 := by
  induction fuel generalizing k with
  | zero => simp [genCode] at h
  | succ n ih =>
    unfold genCode at h
    simp only at h
    split at h
    · exact ih _ h
    · rename_i hcol
      injection h with h2
      subst h2
      refine ⟨?_, ?_, by simpa using hcol, by decide⟩
      · have hl : (codeAttempt rand k).length =
            ((List.range 6).map (fun i => alphabet.getD (rand (6 * k + i)) 'A')).length := rfl
        rw [hl]
        simp
      · intro ch hch
        have hch2 : ch ∈ (List.range 6).map (fun i => alphabet.getD (rand (6 * k + i)) 'A') :=
          hch
        rcases List.mem_map.mp hch2 with ⟨i, _, hrw⟩
        exact hrw ▸ alphabet_getD_mem _

/-- Witness for the amended C8. -/
theorem genCode_spec_witness :
    "AAAAAA".length = 6 ∧ (∀ ch ∈ "AAAAAA".toList, ch ∈ alphabet) ∧
      roomsHas [] "AAAAAA" = false ∧ alphabet.length = 31 :=
  genCode_spec [] (fun _ => 0) 1 0 "AAAAAA" (by decide)

/-! ### Lookup after update -/

theorem roomsGet_roomsSet_self (rooms : Rooms) (code : String) (r : Room) :
    roomsGet (roomsSet rooms code r) code = some r := by
  induction rooms with
  | nil => simp [roomsSet, roomsGet, List.find?]
  | cons p rest ih =>
    unfold roomsSet
    split
    · simp [roomsGet, List.find?_cons]
    · rename_i hp
      have := ih
      simp only [roomsGet] at this ⊢
      simpa [List.find?_cons, hp] using this

/-! ### C3 -/

/-- C3: while the lock is present and not yet elapsed, a spin_request from
the current host is denied with the in-progress notice (targeted), the
registry is unchanged, and no spin_start is broadcast. -/
theorem spin_locked_denied (rooms : Rooms) (sid : Nat) (code : String) (now : Nat)
    (seed : Int) (durR turnsR : Nat) (room : Room) (t : Nat)
    (hr : roomsGet rooms code = some room) (hhost : room.hostId = sid)
    (hl : room.lockUntil = some t) (hnow : now < t) :
    spinStep rooms sid code now seed durR turnsR =
      ⟨rooms, some "A spin is already in progress.", none⟩ := by
  have hle : ¬(t ≤ now) := by omega
  unfold spinStep
  rw [hr]
  simp [hl, hhost, hnow, hle]

/-- Witness for C3. -/
theorem spin_locked_denied_witness :
    spinStep [("R", ⟨[⟨1, "a", 0⟩, ⟨2, "b", 1⟩], 1, 1, some 100, some 2⟩)] 1 "R" 50 0 0 0 =
      ⟨[("R", ⟨[⟨1, "a", 0⟩, ⟨2, "b", 1⟩], 1, 1, some 100, some 2⟩)],
        some "A spin is already in progress.", none⟩ :=
  spin_locked_denied _ 1 "R" 50 0 0 0 _ 100 rfl rfl rfl (by omega)

/-! ### C4 -/

/-- C4: with the lock absent or elapsed and an authorized caller, a
spin_request on a turn order of fewer than 2 users is denied with the
player-count notice; the registry (spins included) is unchanged and no
spin_start is broadcast. -/
theorem spin_too_few_denied (rooms : Rooms) (sid : Nat) (code : String) (now : Nat)
    (seed : Int) (durR turnsR : Nat) (room : Room)
    (hr : roomsGet rooms code = some room)
    (hauth : room.hostId = sid ∨ room.pendingHostId = some sid)
    (hlock : ∀ t, room.lockUntil = some t → t ≤ now)
    (hfew : (turnOrder room.users).length < 2) :
    spinStep rooms sid code now seed durR turnsR =
      ⟨rooms, some "Need at least 2 players.", none⟩ := by
  unfold spinStep
  rw [hr]
  cases hl : room.lockUntil with
  | none =>
    rcases hauth with hh | hp
    · simp [hl, hh, hfew]
    · simp [hl, hp, hfew]
  | some t =>
    have h1 : t ≤ now := hlock t hl
    have h2 : ¬(now < t) := by omega
    rcases hauth with hh | hp
    · simp [hl, hh, h1, h2, hfew]
    · simp [hl, hp, h1, h2, hfew]

/-- Witness for C4. -/
theorem spin_too_few_denied_witness :
    spinStep [("R", ⟨[⟨1, "a", 0⟩], 1, 0, none, none⟩)] 1 "R" 50 0 0 0 =
      ⟨[("R", ⟨[⟨1, "a", 0⟩], 1, 0, none, none⟩)], some "Need at least 2 players.", none⟩ :=
  spin_too_few_denied _ 1 "R" 50 0 0 0 _ rfl (Or.inl rfl)
    (fun t ht => Option.noConfusion ht) (by decide)

/-! ### C7 -/

/-- Accepted-spin shape: under the acceptance preconditions, spin_request
increments spins, installs the lock and pending winner, and broadcasts the
spin_start payload. -/
theorem spinStep_accept (rooms : Rooms) (sid : Nat) (code : String) (now : Nat)
    (seed : Int) (durR turnsR : Nat) (room : Room)
    (hr : roomsGet rooms code = some room)
    (hauth : room.hostId = sid ∨ room.pendingHostId = some sid)
    (hlock : ∀ t, room.lockUntil = some t → t ≤ now)
    (hord : 2 ≤ (turnOrder room.users).length) :
    spinStep rooms sid code now seed durR turnsR =
      ⟨roomsSet rooms code
          { room with
            spins := room.spins + 1
            lockUntil := some (now + 600 + (3400 + durR % 400) + 250)
            pendingHostId := some ((turnOrder room.users).getD
              (seededPick seed (turnOrder room.users).length) default).id },
        none,
        some ⟨(turnOrder room.users).map (·.id),
              seededPick seed (turnOrder room.users).length,
              3400 + durR % 400, 4 + turnsR % 2, now + 600,
              ((turnOrder room.users).getD
                (seededPick seed (turnOrder room.users).length) default).id,
              now + 600 + (3400 + durR % 400) + 250,
              room.spins + 1⟩⟩ := by
  have hnotfew : ¬((turnOrder room.users).length < 2) := by omega
  unfold spinStep
  rw [hr]
  cases hl : room.lockUntil with
  | none =>
    rcases hauth with hh | hp
    · simp [hl, hh, hnotfew]
    · simp [hl, hp, hnotfew]
  | some t =>
    have h1 : t ≤ now := hlock t hl
    have h2 : ¬(now < t) := by omega
    rcases hauth with hh | hp
    · simp [hl, hh, h1, h2, hnotfew]
    · simp [hl, hp, h1, h2, hnotfew]

/-- C7: every accepted spin's winner sits at index
`seededPick seed (turn-order length)` of the turn order, where the pick
XORs the seed with the odd constant 0x9e3779b9, applies shift-XOR steps at
widths 13, 17 and 5, and takes the absolute value modulo the order length. -/
theorem spin_accept_winner (rooms : Rooms) (sid : Nat) (code : String) (now : Nat)
    (seed : Int) (durR turnsR : Nat) (room : Room)
    (hr : roomsGet rooms code = some room)
    (hauth : room.hostId = sid ∨ room.pendingHostId = some sid)
    (hlock : ∀ t, room.lockUntil = some t → t ≤ now)
    (hord : 2 ≤ (turnOrder room.users).length) :
    ∃ payload, (spinStep rooms sid code now seed durR turnsR).started = some payload ∧
      payload.targetIndex = seededPick seed (turnOrder room.users).length ∧
      (∃ hidx : payload.targetIndex < (turnOrder room.users).length,
        payload.nextHostId = ((turnOrder room.users).get ⟨payload.targetIndex, hidx⟩).id) ∧
      payload.targetIndex =
        (let x0 := Nat.xor (toUint32 seed) 0x9e3779b9
         let x1 := Nat.xor x0 (shl32 x0 13)
         let x2 := Nat.xor x1 (sar32 x1 17)
         int32abs (Nat.xor x2 (shl32 x2 5)) % (turnOrder room.users).length) := by
  rw [spinStep_accept rooms sid code now seed durR turnsR room hr hauth hlock hord]
  have hidx : seededPick seed (turnOrder room.users).length < (turnOrder room.users).length :=
    Nat.mod_lt _ (by omega)
  refine ⟨_, rfl, rfl, ⟨hidx, ?_⟩, rfl⟩
  simp only [List.getD_eq_getElem _ _ hidx, List.get_eq_getElem]

/-- Witness for C7. -/
theorem spin_accept_winner_witness :
    ∃ payload,
      (spinStep [("R", ⟨[⟨1, "a", 0⟩, ⟨2, "b", 1⟩], 1, 0, none, none⟩)] 1 "R" 50 0 0 0).started
          = some payload ∧
      payload.targetIndex =
        seededPick 0 (turnOrder [⟨1, "a", 0⟩, ⟨2, "b", 1⟩]).length ∧
      (∃ hidx : payload.targetIndex < (turnOrder [⟨1, "a", 0⟩, ⟨2, "b", 1⟩]).length,
        payload.nextHostId =
          ((turnOrder [⟨1, "a", 0⟩, ⟨2, "b", 1⟩]).get ⟨payload.targetIndex, hidx⟩).id) ∧
      payload.targetIndex =
        (let x0 := Nat.xor (toUint32 0) 0x9e3779b9
         let x1 := Nat.xor x0 (shl32 x0 13)
         let x2 := Nat.xor x1 (sar32 x1 17)
         int32abs (Nat.xor x2 (shl32 x2 5)) %
           (turnOrder [⟨1, "a", 0⟩, ⟨2, "b", 1⟩]).length) :=
  spin_accept_winner [("R", ⟨[⟨1, "a", 0⟩, ⟨2, "b", 1⟩], 1, 0, none, none⟩)] 1 "R" 50 0 0 0
    ⟨[⟨1, "a", 0⟩, ⟨2, "b", 1⟩], 1, 0, none, none⟩ rfl (Or.inl rfl)
    (fun t ht => Option.noConfusion ht) (by decide)

/-! ### C5 -/

/-- C5 counterexample: caller 2 is a member of an idle room hosted by 1,
neither host nor pending winner; the spin_request is dropped with no
targeted rejection notice at all (`denied = none`), while the claim says a
rejection notice is sent. -/
theorem spin_unauthorized_counterexample :
    (spinStep [("R", ⟨[⟨1, "a", 0⟩, ⟨2, "b", 1⟩], 1, 0, none, none⟩)] 2 "R" 50 0 0 0).denied
        = none ∧
      (spinStep [("R", ⟨[⟨1, "a", 0⟩, ⟨2, "b", 1⟩], 1, 0, none, none⟩)] 2 "R" 50 0 0 0).rooms
        = [("R", ⟨[⟨1, "a", 0⟩, ⟨2, "b", 1⟩], 1, 0, none, none⟩)] ∧
      (spinStep [("R", ⟨[⟨1, "a", 0⟩, ⟨2, "b", 1⟩], 1, 0, none, none⟩)] 2 "R" 50 0 0 0).started
        = none := by
  decide

/-- C5 amended: a spin_request by a caller who is neither the current host
nor the pending winner of an elapsed lock is silently ignored: no message
is emitted to anyone and no room state is mutated. -/
theorem spin_unauthorized_ignored (rooms : Rooms) (sid : Nat) (code : String) (now : Nat)
    (seed : Int) (durR turnsR : Nat) (room : Room)
    (hr : roomsGet rooms code = some room)
    (hnh : room.hostId ≠ sid)
    (hnp : room.pendingHostId = some sid → ∃ t, room.lockUntil = some t ∧ now < t) :
    spinStep rooms sid code now seed durR turnsR = ⟨rooms, none, none⟩ := by
  unfold spinStep
  rw [hr]
  by_cases hp : room.pendingHostId = some sid
  · rcases hnp hp with ⟨t, hl, hlt⟩
    have hle : ¬(t ≤ now) := by omega
    simp [hl, hp, hnh, hle]
  · cases hl : room.lockUntil with
    | none => simp [hl, hp, hnh]
    | some t => simp [hl, hp, hnh]

/-- Witness for the amended C5. -/
theorem spin_unauthorized_ignored_witness :
    spinStep [("S", ⟨[⟨3, "c", 0⟩, ⟨4, "d", 1⟩], 3, 1, none, none⟩)] 4 "S" 7 0 0 0 =
      ⟨[("S", ⟨[⟨3, "c", 0⟩, ⟨4, "d", 1⟩], 3, 1, none, none⟩)], none, none⟩ :=
  spin_unauthorized_ignored [("S", ⟨[⟨3, "c", 0⟩, ⟨4, "d", 1⟩], 3, 1, none, none⟩)]
    4 "S" 7 0 0 0 ⟨[⟨3, "c", 0⟩, ⟨4, "d", 1⟩], 3, 1, none, none⟩ rfl (by decide)
    (fun h => Option.noConfusion h)

/-! ### C6 -/

/-- C6 counterexample: the sole member of a room is named "Alex" and renames
to "Alex"; the uniqueness check does not exclude the caller's own current
name, so the acknowledged name is "Alex 2", not the bare "Alex" the claim
requires. -/
theorem setName_own_name_counterexample :
    (setNameStep [("R", ⟨[⟨1, "Alex", 0⟩], 1, 0, none, none⟩)] 1 "R" "Alex" 0).ack =
        SetNameAck.ok "Alex 2" ∧
      SetNameAck.ok "Alex 2" ≠ SetNameAck.ok "Alex" := by
  decide

/-- C6 amended: for a member caller, set_name resolves the new name against
all current names, the caller's own current name included, acknowledges
`ok` with the resolved name and broadcasts state; consequently a request
that case-insensitively matches the caller's own current name never yields
the bare sanitized name (a suffix is appended). -/
theorem setName_member_spec (rooms : Rooms) (sid : Nat) (code raw : String) (pr : Nat)
    (room : Room) (user : User)
    (hr : roomsGet rooms code = some room)
    (hu : usersGet room.users sid = some user) :
    (setNameStep rooms sid code raw pr).ack =
        SetNameAck.ok (uniqueName room (sanitizeName raw pr)) ∧
      (∃ st, (setNameStep rooms sid code raw pr).broadcast = some st) ∧
      (strLower (sanitizeName raw pr) = strLower user.name →
        uniqueName room (sanitizeName raw pr) ≠ sanitizeName raw pr) := by
  have hstep : setNameStep rooms sid code raw pr =
      ⟨roomsSet rooms code
          { room with
            users := renameUsers room.users sid (uniqueName room (sanitizeName raw pr)) },
        SetNameAck.ok (uniqueName room (sanitizeName raw pr)),
        emitState (roomsSet rooms code
          { room with
            users := renameUsers room.users sid (uniqueName room (sanitizeName raw pr)) })
          code⟩ := by
    simp only [setNameStep, hr, hu]
  refine ⟨by rw [hstep], ?_, ?_⟩
  · rw [hstep]
    simp only [emitState, roomsGet_roomsSet_self]
    exact ⟨_, rfl⟩
  · intro hlow
    have hmem : user ∈ room.users := List.mem_of_find?_eq_some hu
    have hcont : (room.users.map (fun u => strLower u.name)).contains
        (strLower (sanitizeName raw pr)) = true := by
      rw [hlow]
      exact List.elem_iff.mpr (List.mem_map.mpr ⟨user, hmem, rfl⟩)
    unfold uniqueName
    simp only [hcont, Bool.not_true, Bool.false_eq_true, if_false]
    have hsp : (" " : String).length = 1 := by decide
    have hst : (" *" : String).length = 2 := by decide
    split
    · intro heq
      have hl := congrArg String.length heq
      rw [String.length_append, String.length_append, hsp] at hl
      omega
    · intro heq
      have hl := congrArg String.length heq
      rw [String.length_append, hst] at hl
      omega

/-- Witness for the amended C6. -/
theorem setName_member_spec_witness :
    (setNameStep [("R", ⟨[⟨1, "Alex", 0⟩], 1, 0, none, none⟩)] 1 "R" "Alex" 7).ack =
        SetNameAck.ok (uniqueName ⟨[⟨1, "Alex", 0⟩], 1, 0, none, none⟩
          (sanitizeName "Alex" 7)) ∧
      (∃ st, (setNameStep [("R", ⟨[⟨1, "Alex", 0⟩], 1, 0, none, none⟩)] 1 "R" "Alex" 7).broadcast
        = some st) ∧
      (strLower (sanitizeName "Alex" 7) = strLower (⟨1, "Alex", 0⟩ : User).name →
        uniqueName ⟨[⟨1, "Alex", 0⟩], 1, 0, none, none⟩ (sanitizeName "Alex" 7)
          ≠ sanitizeName "Alex" 7) :=
  setName_member_spec [("R", ⟨[⟨1, "Alex", 0⟩], 1, 0, none, none⟩)] 1 "R" "Alex" 7
    ⟨[⟨1, "Alex", 0⟩], 1, 0, none, none⟩ ⟨1, "Alex", 0⟩ rfl rfl

/-! ### C2 -/

/-- C2: the deferred commit is a no-op when the room vanished; otherwise it
installs the pending winner as host if still a member, else the
earliest-joined remaining member (host unchanged on an empty room), and
clears `pendingHostId` and `lockUntil` in every surviving case, touching
nothing else. -/
theorem commit_semantics (rooms : Rooms) (code : String) :
    (roomsGet rooms code = none → commitStep rooms code = rooms) ∧
    ∀ room, roomsGet rooms code = some room →
      roomsGet (commitStep rooms code) code = some (commitRoom room) ∧
      (commitRoom room).pendingHostId = none ∧
      (commitRoom room).lockUntil = none ∧
      (commitRoom room).users = room.users ∧
      (commitRoom room).spins = room.spins ∧
      (∀ p, room.pendingHostId = some p → usersHas room.users p = true →
        (commitRoom room).hostId = p) ∧
      (room.users = [] → (commitRoom room).hostId = room.hostId) ∧
      ((∀ p, room.pendingHostId = some p → usersHas room.users p = false) →
        List.Pairwise (fun a b : User => a.joinedAt ≤ b.joinedAt) room.users →
        ∀ u, room.users.head? = some u →
          (commitRoom room).hostId = u.id ∧
            ∀ v ∈ room.users, u.joinedAt ≤ v.joinedAt) := by
  constructor
  · intro h
    unfold commitStep
    rw [h]
  · intro room hr
    unfold commitStep
    rw [hr]
    refine ⟨roomsGet_roomsSet_self _ _ _, rfl, rfl, rfl, rfl, ?_, ?_, ?_⟩
    · intro p hp hhas
      simp [commitRoom, hp, hhas]
    · intro hnil
      cases hpd : room.pendingHostId with
      | none => simp [commitRoom, hpd, hnil, firstUserId]
      | some p => simp [commitRoom, hpd, hnil, firstUserId, usersHas]
    · intro hgone hpair u hhead
      have hstill : (match room.pendingHostId with
          | some p => usersHas room.users p
          | none => false) = false := by
        cases hpd : room.pendingHostId with
        | none => rfl
        | some p => exact hgone p hpd
      have hfirst : firstUserId room.users = some u.id := by
        unfold firstUserId
        rw [hhead]
        rfl
      constructor
      · simp [commitRoom, hstill, hfirst]
      · intro v hv
        cases hus : room.users with
        | nil =>
          rw [hus] at hhead
          exact absurd hhead (by simp)
        | cons w rest =>
          rw [hus] at hhead hv hpair
          simp at hhead
          subst hhead
          rcases List.mem_cons.mp hv with h1 | h1
          · rw [h1]
          · exact List.rel_of_pairwise_cons hpair h1

/-- Witness for C2. -/
theorem commit_semantics_witness :
    roomsGet (commitStep [("R", ⟨[⟨1, "a", 0⟩, ⟨2, "b", 1⟩], 1, 3, some 99, some 2⟩)] "R") "R"
        = some (commitRoom ⟨[⟨1, "a", 0⟩, ⟨2, "b", 1⟩], 1, 3, some 99, some 2⟩) ∧
      (commitRoom ⟨[⟨1, "a", 0⟩, ⟨2, "b", 1⟩], 1, 3, some 99, some 2⟩).hostId = 2 ∧
      (commitRoom ⟨[⟨1, "a", 0⟩, ⟨2, "b", 1⟩], 1, 3, some 99, some 2⟩).pendingHostId = none ∧
      (commitRoom ⟨[⟨1, "a", 0⟩, ⟨2, "b", 1⟩], 1, 3, some 99, some 2⟩).lockUntil = none := by
  have h := (commit_semantics [("R", ⟨[⟨1, "a", 0⟩, ⟨2, "b", 1⟩], 1, 3, some 99, some 2⟩)]
    "R").2 ⟨[⟨1, "a", 0⟩, ⟨2, "b", 1⟩], 1, 3, some 99, some 2⟩ rfl
  exact ⟨h.1, h.2.2.2.2.2.1 2 rfl (by decide), h.2.1, h.2.2.1⟩

end SpinBottle
